import Mathlib

/-!
Verification of the incremental-rebuild core of `build.go` (package `build`).

The development shallowly embeds the pieces of `Build.Run` relevant to the
watch loop, together with the source-tree hasher `sourceTreeHash` and
`directoryHash`.  Compile callbacks are modelled as a function from the step
index to a success flag for the tick under consideration; the filesystem is
modelled as an explicit tree value; the SHA-1 digest is modelled as the exact
tree of byte strings written into the hasher (SHA-1 itself being an injective
deterministic function of that transcript, in the ideal-hash reading the spec
adopts with its "with overwhelming probability" caveat).
-/

namespace BuildGo

/-- Mirrors `type sourceTreeStatus struct` of build.go: the last observed
digest together with the Dirty and Broken flags. -/
structure sourceTreeStatus where
  TreeHash : String
  Dirty : Bool
  Broken : Bool
deriving DecidableEq

/-- The body of the inner `for j := i + 1; ...` cascade loop of `Build.Run`
(build.go lines 124-134), applied to the status of one later step `j` after
step `i`'s tree hash was seen to change. -/
def cascadeStep (quick : Bool) (s : sourceTreeStatus) : sourceTreeStatus :=
  if s.Broken then
    { s with Dirty := true, Broken := false }
  else if !quick then
    { s with Dirty := true }
  else
    s

/-- The hash-comparison phase of one poll tick of `Build.Run` (build.go lines
118-137): each step is visited in order, paired with the tree hash computed
for it during this tick; on a change the step is marked dirty (Broken
cleared, TreeHash updated) and the cascade is applied to every later step
before the scan continues. -/
def hashScan (quick : Bool) : List (sourceTreeStatus × String) → List sourceTreeStatus
  | [] => []
  | (s, th) :: rest =>
    if s.TreeHash ≠ th then
      ⟨th, true, false⟩ ::
        hashScan quick (rest.map (fun p => (cascadeStep quick p.1, p.2)))
    else
      s :: hashScan quick rest
termination_by l => l.length
decreasing_by
  all_goals simp_all [List.length_map]

/-- Result of the recompilation phase of one poll tick: the updated status
array, the `shouldRestart` flag, and the indices whose `Compile` callback was
invoked, in invocation order. -/
structure TickResult where
  status : List sourceTreeStatus
  shouldRestart : Bool
  compiled : List Nat
deriving DecidableEq

/-- The recompilation phase of one poll tick of `Build.Run` (build.go lines
139-156): walk the steps in order; a dirty step has its Dirty flag cleared
and its callback invoked (`ok i` tells whether that callback succeeds this
tick); `shouldRestart` is set when the step being recompiled is the last one
(`i == len(b.Steps)-1`), before the callback runs; a failing callback stops
the walk; a succeeding callback sets the step's Broken flag (the inversion
observed in the source).  `n` is `len(b.Steps)` and `i` the index of the
first element of the remaining list. -/
def recompilePass (ok : Nat → Bool) (n : Nat) : Nat → List sourceTreeStatus → TickResult
  | _, [] => ⟨[], false, []⟩
  | i, s :: rest =>
    if s.Dirty then
      if ok i then
        let r := recompilePass ok n (i + 1) rest
        ⟨{ s with Dirty := false, Broken := true } :: r.status,
          (decide (i = n - 1)) || r.shouldRestart,
          i :: r.compiled⟩
      else
        ⟨{ s with Dirty := false } :: rest, decide (i = n - 1), [i]⟩
    else
      let r := recompilePass ok n (i + 1) rest
      ⟨s :: r.status, r.shouldRestart, r.compiled⟩

/-- One full poll tick of the watch loop of `Build.Run` (build.go lines
115-159): the hash-comparison/cascade phase followed by the recompilation
phase.  `pairs` carries, for each step, its status entering the tick together
with the tree hash computed for it during this tick; `ok` tells for each step
index whether its compile callback would succeed. -/
def tick (quick : Bool) (ok : Nat → Bool) (pairs : List (sourceTreeStatus × String)) : TickResult :=
  recompilePass ok pairs.length 0 (hashScan quick pairs)

/-- Result of the initial compile pass of `Build.Run`: the status array it
leaves behind, the indices whose callback was invoked, and whether the pass
terminated fatally (`log.Fatalf`) instead of continuing. -/
structure InitResult where
  status : List sourceTreeStatus
  compiled : List Nat
  fatal : Bool
deriving DecidableEq

/-- The initial compile pass of `Build.Run` (build.go lines 71-87): every
step is compiled once in order over a zero-initialised status array; on a
failure with `watch` set, the failing step and all later ones get their
Broken flag set and the loop stops (`Run` then proceeds towards the watch
loop); on a failure without `watch` the whole run is fatal.  `i` is the index
of the current step and the second argument the number of remaining steps. -/
def initialCompile (ok : Nat → Bool) (watch : Bool) : Nat → Nat → InitResult
  | _, 0 => ⟨[], [], false⟩
  | i, m + 1 =>
    if ok i then
      let r := initialCompile ok watch (i + 1) m
      ⟨⟨"", false, false⟩ :: r.status, i :: r.compiled, r.fatal⟩
    else if watch then
      ⟨List.replicate (m + 1) ⟨"", false, true⟩, [i], false⟩
    else
      ⟨List.replicate (m + 1) ⟨"", false, false⟩, [i], true⟩

/-- Mirrors `type WatchList struct` of build.go.  A Go nil `FileFilter` slice
(no filtering at all) is `none`; a present filter list is `some patterns`. -/
structure WatchList where
  Paths : List String
  FileFilter : Option (List String)

/-- Glob matching as performed by `filepath.Match` for the pattern forms the
repository exercises (literal characters and the `*` and `?` wildcards):
`*` matches any possibly empty run of non-separator characters, `?` exactly
one non-separator character, and any other pattern character matches
itself. -/
def globMatch : List Char → List Char → Bool
  | [], s => s.isEmpty
  | c :: p, s =>
    if c = '*' then
      globMatch p s ||
        (match s with
          | [] => false
          | d :: s' => decide (d ≠ '/') && globMatch (c :: p) s')
    else
      match s with
      | [] => false
      | d :: s' => (if c = '?' then decide (d ≠ '/') else decide (c = d)) && globMatch p s'
termination_by p s => (p.length, s.length)

/-- `filepath.Base`: strip trailing separators, then keep the part after the
last separator; empty input gives `.` and an all-separator input gives `/`. -/
def filepathBase (p : String) : String :=
  if p = "" then "." else
    let cs := p.data.reverse.dropWhile (fun c => c = '/')
    if cs = [] then "/" else String.mk ((cs.takeWhile (fun c => c ≠ '/')).reverse)

/-- `path.Join` as used on the already-clean paths `build.go` builds while
recursing: concatenation with a single separator. -/
def pathJoin (a b : String) : String :=
  a ++ "/" ++ b

mutual
/-- A filesystem tree.  `file` carries the byte content the hasher copies in
plus a modification time standing for all the metadata `directoryHash` never
reads; `dir` carries the children in directory-listing order; `absent` is a
path on which `os.Stat` fails. -/
inductive FSNode where
  | file (content : List Nat) (mtime : Nat) : FSNode
  | dir (children : FSDir) : FSNode
  | absent : FSNode
inductive FSDir where
  | nil : FSDir
  | cons (name : String) (node : FSNode) (rest : FSDir) : FSDir
end

mutual
/-- The transcript of byte strings written into a SHA-1 hasher: `str` a path
string, `bytes` raw file content, `node` the `Sum` of a fresh hasher that
received the listed writes.  Modelling the digest as this transcript reads
SHA-1 as an injective deterministic function, the ideal-hash view under which
the spec's digest statements are made. -/
inductive HTree where
  | str (s : String) : HTree
  | bytes (b : List Nat) : HTree
  | node (ts : HForest) : HTree
inductive HForest where
  | nil : HForest
  | cons (t : HTree) (ts : HForest) : HForest
end

/-- Concatenation of two write sequences. -/
def HForest.append : HForest → HForest → HForest
  | .nil, g => g
  | .cons t ts, g => .cons t (ts.append g)

/-- The `name == "" || name[0] == '.'` test of `directoryHash` that skips
hidden directory entries. -/
def hiddenName (n : String) : Bool :=
  match n.data with
  | [] => true
  | c :: _ => c = '.'

/-- The fixed subtree exclusion set of `directoryHash`. -/
def excludedDir (base : String) : Bool :=
  base = ".git" || base = ".." || base = "node_modules" || base = "build" || base = "doc"

/-- The `found` computation of `directoryHash` (build.go lines 287-298): with
a configured filter list, a file takes part only when some pattern matches
its full path or its base name. -/
def matchesFilter (w : WatchList) (filePath : String) : Bool :=
  match w.FileFilter with
  | none => true
  | some patterns =>
    patterns.any (fun pat =>
      globMatch pat.data filePath.data || globMatch pat.data (filepathBase filePath).data)

mutual
/-- `func directoryHash(level int, filePath string, w WatchList) []byte` of
build.go, returning the write sequence the call contributes to its caller's
hasher: nothing for an excluded subtree or a filtered-out file, otherwise the
`Sum` of a hasher fed the path string followed by, for a file, its content
and, for a directory, the contributions of its non-hidden children in listing
order under their joined paths.  A stat failure contributes the `Sum` over
the path string alone. -/
def directoryHash (level : Nat) (filePath : String) (w : WatchList) : FSNode → HForest
  | .absent => .cons (.node (.cons (.str filePath) .nil)) .nil
  | .file content _ =>
    if matchesFilter w filePath then
      .cons (.node (.cons (.str filePath) (.cons (.bytes content) .nil))) .nil
    else
      .nil
  | .dir children =>
    if level > 0 && excludedDir (filepathBase filePath) then
      .nil
    else
      .cons (.node (.cons (.str filePath) (dirChildrenHash level filePath w children))) .nil
def dirChildrenHash (level : Nat) (filePath : String) (w : WatchList) : FSDir → HForest
  | .nil => .nil
  | .cons name node rest =>
    if hiddenName name then
      dirChildrenHash level filePath w rest
    else
      HForest.append (directoryHash (level + 1) (pathJoin filePath name) w node)
        (dirChildrenHash level filePath w rest)
end

/-- The per-root accumulation of `func sourceTreeHash` (build.go lines
249-255): the root digests are written in declaration order. -/
def rootsHash (w : WatchList) (fs : String → FSNode) : List String → HForest
  | [] => .nil
  | d :: rest => HForest.append (directoryHash 0 d w (fs d)) (rootsHash w fs rest)

/-- `func sourceTreeHash(w WatchList) string` of build.go over an explicit
filesystem `fs` giving the tree found at each root path: the digest of a
hasher fed every root's contribution in order.  (The hex encoding of the
final `Sum` is injective and therefore omitted.) -/
def sourceTreeHash (w : WatchList) (fs : String → FSNode) : HTree :=
  .node (rootsHash w fs w.Paths)

mutual
/-- Equality of filesystem trees up to metadata: same shape, same names in
the same listing order, same dir/file/absent classification and same file
bytes; modification times are allowed to differ.  This captures the spec's
"identical filesystem content and structure (same paths, same file names,
same file bytes)". -/
def sameTree : FSNode → FSNode → Bool
  | .file c _, .file c' _ => decide (c = c')
  | .dir cs, .dir cs' => sameDir cs cs'
  | .absent, .absent => true
  | _, _ => false
def sameDir : FSDir → FSDir → Bool
  | .nil, .nil => true
  | .cons n t r, .cons n' t' r' => decide (n = n') && sameTree t t' && sameDir r r'
  | _, _ => false
end

/-! ## Lemmas about the tick machine -/

theorem hashScan_length (quick : Bool) : ∀ (m : Nat) (pairs : List (sourceTreeStatus × String)),
    pairs.length ≤ m → (hashScan quick pairs).length = pairs.length := by
  intro m
  induction m with
  | zero =>
    intro pairs h
    rw [Nat.le_zero, List.length_eq_zero] at h
    subst h
    rw [hashScan]
    rfl
  | succ m ih =>
    intro pairs h
    match pairs with
    | [] => rw [hashScan]; rfl
    | (s, th) :: rest =>
      rw [hashScan]
      split
      · simp only [List.length_cons]
        rw [ih (rest.map (fun p => (cascadeStep quick p.1, p.2))) (by simpa using Nat.le_of_succ_le_succ h)]
        simp
      · simp only [List.length_cons]
        rw [ih rest (Nat.le_of_succ_le_succ h)]

theorem recompilePass_restart_iff (ok : Nat → Bool) (n : Nat) :
    ∀ (l : List sourceTreeStatus) (i : Nat), i + l.length = n →
      ((recompilePass ok n i l).shouldRestart = true ↔
        (n - 1) ∈ (recompilePass ok n i l).compiled) := by
  intro l
  induction l with
  | nil => intro i h; simp [recompilePass]
  | cons s rest ih =>
    intro i h
    have hrec := ih (i + 1) (by simp only [List.length_cons] at h; omega)
    cases hd : s.Dirty
    · simpa [recompilePass, hd] using hrec
    · cases hok : ok i
      · simp [recompilePass, hd, hok]
        exact eq_comm
      · simp [recompilePass, hd, hok, hrec]
        exact or_congr eq_comm Iff.rfl

/-- Claim C1 (amended): in a poll tick of `Build.Run`, restart is signaled if
and only if the recompile loop reaches the last step with its Dirty flag set,
i.e. exactly when the last step's compile callback is invoked during that
tick — regardless of whether that callback succeeds.  In particular a tick
that recompiles only earlier steps never signals restart. -/
theorem restart_iff_last_step_compile_attempted (quick : Bool) (ok : Nat → Bool)
    (pairs : List (sourceTreeStatus × String)) :
    (tick quick ok pairs).shouldRestart = true ↔
      (pairs.length - 1) ∈ (tick quick ok pairs).compiled := by
  unfold tick
  exact recompilePass_restart_iff ok pairs.length (hashScan quick pairs) 0
    (by simp [hashScan_length quick pairs.length pairs (Nat.le_refl _)])

/-- Claim C1 counterexample: a single-step pipeline whose tree hash changed
runs its compile callback, the callback fails, and the tick nevertheless
signals a restart (`shouldRestart` is set at build.go line 146 before the
callback runs and is not withdrawn on error), contradicting the claim that a
tick in which the last step's compile callback returns an error does not
signal a restart. -/
theorem restart_signaled_despite_failed_last_compile :
    (tick false (fun _ => false) [(⟨"a", false, false⟩, "b")]).shouldRestart = true
    ∧ (fun _ : Nat => false) 0 = false ∧
      0 ∈ (tick false (fun _ => false) [(⟨"a", false, false⟩, "b")]).compiled := by
  refine ⟨?_, rfl, ?_⟩ <;> simp [tick, hashScan, recompilePass, cascadeStep]

/-- Claim C2 (evidence of the code bug): after a tick in which the single
step was dirty, a succeeding compile callback leaves the step's Broken flag
set (build.go line 154 sets it on the success branch) while a failing compile
callback leaves the Broken flag clear — the exact inversion of "Broken is set
exactly when the most recent compile attempt failed" that the glossary, the
initial-pass handling (line 80) and the cascade comment (line 126) all
intend. -/
theorem broken_flag_inverted :
    ((tick false (fun _ => true) [(⟨"a", false, false⟩, "b")]).status.map
        (fun s => s.Broken)) = [true]
    ∧ ((tick false (fun _ => false) [(⟨"a", false, false⟩, "b")]).status.map
        (fun s => s.Broken)) = [false] := by
  constructor <;> simp [tick, hashScan, recompilePass, cascadeStep]

/-- Claim C3: without the quick flag, in a 3-step pipeline whose statuses are
clean, a tick in which only step 0's tree hash differs marks all three steps
Dirty, while a tick in which only step 2's tree hash differs marks only
step 2 Dirty. -/
theorem nonquick_cascade (t0 t1 t2 h0 h2 : String) (hne0 : h0 ≠ t0) (hne2 : h2 ≠ t2) :
    (hashScan false [(⟨t0, false, false⟩, h0), (⟨t1, false, false⟩, t1),
        (⟨t2, false, false⟩, t2)]).map (fun s => s.Dirty) = [true, true, true]
    ∧ (hashScan false [(⟨t0, false, false⟩, t0), (⟨t1, false, false⟩, t1),
        (⟨t2, false, false⟩, h2)]).map (fun s => s.Dirty) = [false, false, true] := by
  constructor
  · simp [hashScan, cascadeStep, Ne.symm hne0]
  · simp [hashScan, cascadeStep, Ne.symm hne2]

/-- Witness for C3 at concrete hashes. -/
theorem nonquick_cascade_witness :
    (hashScan false [(⟨"a", false, false⟩, "x"), (⟨"b", false, false⟩, "b"),
        (⟨"c", false, false⟩, "c")]).map (fun s => s.Dirty) = [true, true, true]
    ∧ (hashScan false [(⟨"a", false, false⟩, "a"), (⟨"b", false, false⟩, "b"),
        (⟨"c", false, false⟩, "y")]).map (fun s => s.Dirty) = [false, false, true] :=
  nonquick_cascade "a" "b" "c" "x" "y" (by decide) (by decide)

/-- Claim C4: with the quick flag, in a 3-step pipeline, a tick in which only
step 0's tree hash differs marks only step 0 Dirty, except that a later step
whose Broken flag was set is also marked Dirty with its Broken flag cleared;
nothing else about the later steps changes. -/
theorem quick_cascade (t0 t1 t2 h0 : String) (b1 b2 : Bool) (hne : h0 ≠ t0) :
    hashScan true [(⟨t0, false, false⟩, h0), (⟨t1, false, b1⟩, t1), (⟨t2, false, b2⟩, t2)]
      = [⟨h0, true, false⟩, ⟨t1, b1, false⟩, ⟨t2, b2, false⟩] := by
  cases b1 <;> cases b2 <;> simp [hashScan, cascadeStep, Ne.symm hne]

/-- Witness for C4 at concrete hashes with step 1 Broken and step 2 not. -/
theorem quick_cascade_witness :
    hashScan true [(⟨"a", false, false⟩, "x"), (⟨"b", false, true⟩, "b"),
        (⟨"c", false, false⟩, "c")]
      = [⟨"x", true, false⟩, ⟨"b", true, false⟩, ⟨"c", false, false⟩] :=
  quick_cascade "a" "b" "c" "x" true false (by decide)

theorem initialCompile_fail_spec (ok : Nat → Bool) :
    ∀ (k m i : Nat), k < m → (∀ j, j < k → ok (i + j) = true) → ok (i + k) = false →
      (initialCompile ok true i m).fatal = false
      ∧ (initialCompile ok true i m).compiled = (List.range (k + 1)).map (fun j => i + j)
      ∧ (initialCompile ok true i m).status.map (fun s => s.Broken)
          = (List.range m).map (fun j => decide (k ≤ j)) := by
  intro k
  induction k with
  | zero =>
    intro m i hk hfirst hfail
    match m, hk with
    | m' + 1, _ =>
      rw [Nat.add_zero] at hfail
      refine ⟨?_, ?_, ?_⟩
      · simp [initialCompile, hfail]
      · simp [initialCompile, hfail, List.range_succ]
      · simp only [initialCompile, hfail, Bool.false_eq_true, if_false, if_true,
          List.map_replicate]
        symm
        rw [List.eq_replicate_iff]
        constructor
        · simp
        · intro b hb
          simp only [List.mem_map] at hb
          obtain ⟨j, _, hj⟩ := hb
          simp [← hj]
  | succ k ih =>
    intro m i hk hfirst hfail
    match m, hk with
    | m' + 1, _ =>
      have hok : ok i = true := by simpa using hfirst 0 (Nat.succ_pos k)
      have hrec := ih m' (i + 1) (by omega)
        (fun j hj => by
          have := hfirst (j + 1) (by omega)
          simpa [Nat.add_assoc, Nat.add_comm 1 j] using this)
        (by simpa [Nat.add_assoc, Nat.add_comm 1 k] using hfail)
      obtain ⟨hf, hc, hs⟩ := hrec
      refine ⟨?_, ?_, ?_⟩
      · simpa [initialCompile, hok] using hf
      · simp only [initialCompile, hok, if_true]
        rw [List.range_succ_eq_map]
        simp only [List.map_cons, List.map_map, Nat.add_zero]
        rw [hc]
        refine congrArg (fun l => i :: l) ?_
        apply List.map_congr_left
        intro a _
        simp [Function.comp]
        omega
      · simp only [initialCompile, hok, if_true]
        rw [List.range_succ_eq_map (n := m')]
        simp only [List.map_cons, List.map_map]
        rw [hs]
        refine congrArg₂ (fun b l => b :: l) (by simp) ?_
        apply List.map_congr_left
        intro a _
        simp [Function.comp, Nat.succ_le_succ_iff]

/-- Claim C5: with watch mode requested, when step `k` is the first whose
compile callback fails during the initial pass, the pass is not fatal (`Run`
continues into the watch loop), exactly steps `0..k` have their callbacks
invoked, and the Broken flags afterwards are set exactly on step `k` and
every later step. -/
theorem initial_pass_failure_marks_broken (ok : Nat → Bool) (n k : Nat) (hk : k < n)
    (hok : ∀ j, j < k → ok j = true) (hfail : ok k = false) :
    (initialCompile ok true 0 n).fatal = false
    ∧ (initialCompile ok true 0 n).compiled = List.range (k + 1)
    ∧ (initialCompile ok true 0 n).status.map (fun s => s.Broken)
        = (List.range n).map (fun j => decide (k ≤ j)) := by
  have h := initialCompile_fail_spec ok k n 0 hk (by simpa using hok) (by simpa using hfail)
  simpa using h

/-- Witness for C5: a 2-step pipeline whose step 0 fails on the initial pass
leaves both steps Broken, invokes only step 0's callback, and does not
terminate the run. -/
theorem initial_pass_failure_marks_broken_witness :
    (initialCompile (fun _ => false) true 0 2).fatal = false
    ∧ (initialCompile (fun _ => false) true 0 2).compiled = List.range 1
    ∧ (initialCompile (fun _ => false) true 0 2).status.map (fun s => s.Broken)
        = (List.range 2).map (fun j => decide (0 ≤ j)) :=
  initial_pass_failure_marks_broken (fun _ => false) 2 0 (by decide)
    (fun j hj => absurd hj (Nat.not_lt_zero j)) rfl

theorem recompilePass_status_length (ok : Nat → Bool) (n : Nat) :
    ∀ (l : List sourceTreeStatus) (i : Nat),
      (recompilePass ok n i l).status.length = l.length := by
  intro l
  induction l with
  | nil => intro i; rfl
  | cons s rest ih =>
    intro i
    rw [recompilePass]
    by_cases hd : s.Dirty = true
    · by_cases hok : ok i = true
      · simp [hd, hok, ih (i + 1)]
      · simp [hd, hok]
    · simp [hd, ih (i + 1)]

theorem recompilePass_compiled_dirty (ok : Nat → Bool) (n : Nat) :
    ∀ (l : List sourceTreeStatus) (i j : Nat), j ∈ (recompilePass ok n i l).compiled →
      ∃ p, ∃ hp : p < l.length, j = i + p ∧ (l.get ⟨p, hp⟩).Dirty = true := by
  intro l
  induction l with
  | nil => intro i j h; simp [recompilePass] at h
  | cons s rest ih =>
    intro i j hmem
    rw [recompilePass] at hmem
    by_cases hd : s.Dirty = true
    · by_cases hok : ok i = true
      · simp only [hd, hok, if_true] at hmem
        rcases List.mem_cons.mp hmem with h | h
        · exact ⟨0, Nat.succ_pos _, by simpa using h, by simpa using hd⟩
        · obtain ⟨p, hp, hj, hdp⟩ := ih (i + 1) j h
          exact ⟨p + 1, Nat.succ_lt_succ hp, by omega, by simpa using hdp⟩
      · simp only [hd, hok, if_true, Bool.false_eq_true, if_false] at hmem
        rcases List.mem_singleton.mp hmem with h
        exact ⟨0, Nat.succ_pos _, by simpa using h, by simpa using hd⟩
    · simp only [hd, Bool.false_eq_true, if_false] at hmem
      obtain ⟨p, hp, hj, hdp⟩ := ih (i + 1) j hmem
      exact ⟨p + 1, Nat.succ_lt_succ hp, by omega, by simpa using hdp⟩

theorem recompilePass_fail_master (ok : Nat → Bool) (n : Nat) :
    ∀ (l : List sourceTreeStatus) (i k : Nat) (hk : k < l.length),
      (l.get ⟨k, hk⟩).Dirty = true → ok (i + k) = false →
      (∀ q, (hq : q < k) → (l.get ⟨q, Nat.lt_trans hq hk⟩).Dirty = true → ok (i + q) = true) →
      (∀ j ∈ (recompilePass ok n i l).compiled, j ≤ i + k)
      ∧ (i + k) ∈ (recompilePass ok n i l).compiled
      ∧ (∀ hk2 : k < (recompilePass ok n i l).status.length,
          (recompilePass ok n i l).status.get ⟨k, hk2⟩ = { l.get ⟨k, hk⟩ with Dirty := false })
      ∧ (∀ q, (hq : q < l.length) → k < q →
          ∀ hq2 : q < (recompilePass ok n i l).status.length,
          (recompilePass ok n i l).status.get ⟨q, hq2⟩ = l.get ⟨q, hq⟩) := by
  intro l
  induction l with
  | nil => intro i k hk; exact absurd hk (Nat.not_lt_zero k)
  | cons s rest ih =>
    intro i k hk hkd hkf hbefore
    match k with
    | 0 =>
      have hsd : s.Dirty = true := by simpa using hkd
      have hsf : ok i = false := by simpa using hkf
      have heq : recompilePass ok n i (s :: rest)
          = ⟨{ s with Dirty := false } :: rest, decide (i = n - 1), [i]⟩ := by
        rw [recompilePass]
        simp [hsd, hsf]
      rw [heq]
      refine ⟨?_, ?_, ?_, ?_⟩
      · intro j hj
        rcases List.mem_singleton.mp hj with h
        omega
      · simp
      · intro hk2
        simp [List.get]
      · intro q hq hq0 hq2
        match q with
        | q' + 1 => simp [List.get]
    | k' + 1 =>
      have hkd' : (rest.get ⟨k', Nat.lt_of_succ_lt_succ hk⟩).Dirty = true := by
        simpa [List.get] using hkd
      have hkf' : ok (i + 1 + k') = false := by
        rw [show i + 1 + k' = i + (k' + 1) by omega]
        exact hkf
      have hbefore' : ∀ q, (hq : q < k') →
          (rest.get ⟨q, Nat.lt_trans hq (Nat.lt_of_succ_lt_succ hk)⟩).Dirty = true →
          ok (i + 1 + q) = true := by
        intro q hq hdq
        rw [show i + 1 + q = i + (q + 1) by omega]
        exact hbefore (q + 1) (Nat.succ_lt_succ hq) (by simpa [List.get] using hdq)
      obtain ⟨ihA, ihB, ihC, ihD⟩ :=
        ih (i + 1) k' (Nat.lt_of_succ_lt_succ hk) hkd' hkf' hbefore'
      by_cases hd : s.Dirty = true
      · have hok : ok i = true := by
          simpa using hbefore 0 (Nat.succ_pos k') (by simpa using hd)
        have heq : recompilePass ok n i (s :: rest)
            = ⟨{ s with Dirty := false, Broken := true }
                  :: (recompilePass ok n (i + 1) rest).status,
                (decide (i = n - 1)) || (recompilePass ok n (i + 1) rest).shouldRestart,
                i :: (recompilePass ok n (i + 1) rest).compiled⟩ := by
          rw [recompilePass]
          simp [hd, hok]
        rw [heq]
        refine ⟨?_, ?_, ?_, ?_⟩
        · intro j hj
          rcases List.mem_cons.mp hj with h | h
          · omega
          · have := ihA j h
            omega
        · refine List.mem_cons.mpr (Or.inr ?_)
          rw [show i + (k' + 1) = i + 1 + k' by omega]
          exact ihB
        · intro hk2
          have hk2' : k' < (recompilePass ok n (i + 1) rest).status.length :=
            Nat.lt_of_succ_lt_succ hk2
          have := ihC hk2'
          simpa [List.get] using this
        · intro q hq hqgt hq2
          match q, hq, hqgt, hq2 with
          | q' + 1, hq, hqgt, hq2 =>
            have hq' : q' < rest.length := Nat.lt_of_succ_lt_succ hq
            have hq2' : q' < (recompilePass ok n (i + 1) rest).status.length :=
              Nat.lt_of_succ_lt_succ hq2
            have := ihD q' hq' (Nat.lt_of_succ_lt_succ hqgt) hq2'
            simpa [List.get] using this
      · have heq : recompilePass ok n i (s :: rest)
            = ⟨s :: (recompilePass ok n (i + 1) rest).status,
                (recompilePass ok n (i + 1) rest).shouldRestart,
                (recompilePass ok n (i + 1) rest).compiled⟩ := by
          rw [recompilePass]
          simp [hd]
        rw [heq]
        refine ⟨?_, ?_, ?_, ?_⟩
        · intro j hj
          have := ihA j hj
          omega
        · rw [show i + (k' + 1) = i + 1 + k' by omega]
          exact ihB
        · intro hk2
          have hk2' : k' < (recompilePass ok n (i + 1) rest).status.length :=
            Nat.lt_of_succ_lt_succ hk2
          have := ihC hk2'
          simpa [List.get] using this
        · intro q hq hqgt hq2
          match q, hq, hqgt, hq2 with
          | q' + 1, hq, hqgt, hq2 =>
            have hq' : q' < rest.length := Nat.lt_of_succ_lt_succ hq
            have hq2' : q' < (recompilePass ok n (i + 1) rest).status.length :=
              Nat.lt_of_succ_lt_succ hq2
            have := ihD q' hq' (Nat.lt_of_succ_lt_succ hqgt) hq2'
            simpa [List.get] using this

theorem hashScan_unchanged (quick : Bool) :
    ∀ pairs : List (sourceTreeStatus × String), (∀ p ∈ pairs, p.1.TreeHash = p.2) →
      hashScan quick pairs = pairs.map Prod.fst := by
  intro pairs
  induction pairs with
  | nil => intro _; rw [hashScan]; rfl
  | cons p rest ih =>
    intro h
    obtain ⟨s, th⟩ := p
    have h1 : s.TreeHash = th := h (s, th) (List.mem_cons_self _ _)
    rw [hashScan, if_neg (by simp [h1])]
    simp only [List.map_cons]
    rw [ih (fun q hq => h q (List.mem_cons_of_mem _ hq))]

theorem recompilePass_no_dirty (ok : Nat → Bool) (n : Nat) :
    ∀ (l : List sourceTreeStatus) (i : Nat), (∀ s ∈ l, s.Dirty = false) →
      recompilePass ok n i l = ⟨l, false, []⟩ := by
  intro l
  induction l with
  | nil => intro i _; rfl
  | cons s rest ih =>
    intro i h
    have hs : s.Dirty = false := h s (List.mem_cons_self _ _)
    rw [recompilePass]
    simp only [hs, Bool.false_eq_true, if_false]
    rw [ih (i + 1) (fun q hq => h q (List.mem_cons_of_mem _ hq))]

theorem recompilePass_all_ok_clean (ok : Nat → Bool) (n : Nat) (hok : ∀ j, ok j = true) :
    ∀ (l : List sourceTreeStatus) (i : Nat),
      ∀ s ∈ (recompilePass ok n i l).status, s.Dirty = false := by
  intro l
  induction l with
  | nil => intro i s hs; simp [recompilePass] at hs
  | cons t rest ih =>
    intro i s hs
    rw [recompilePass] at hs
    by_cases hd : t.Dirty = true
    · simp only [hd, hok i, if_true] at hs
      rcases List.mem_cons.mp hs with h | h
      · rw [h]
      · exact ih (i + 1) s h
    · simp only [hd, Bool.false_eq_true, if_false] at hs
      rcases List.mem_cons.mp hs with h | h
      · rw [h]
        simpa using hd
      · exact ih (i + 1) s h

/-- Claim C6: during the recompilation phase of a poll tick, when step `k` is
the first dirty step whose compile callback fails, no step after `k` has its
callback invoked during that tick, and the status of every step after `k` is
left untouched — in particular a later step whose Dirty flag was set keeps
it, so it is recompiled on the next tick without any further filesystem
change. -/
theorem compile_error_stops_tick (ok : Nat → Bool) (st : List sourceTreeStatus) (k : Nat)
    (hk : k < st.length) (hd : (st.get ⟨k, hk⟩).Dirty = true) (hfail : ok k = false)
    (hbefore : ∀ q, (hq : q < k) → (st.get ⟨q, Nat.lt_trans hq hk⟩).Dirty = true →
      ok q = true) :
    (∀ j ∈ (recompilePass ok st.length 0 st).compiled, j ≤ k)
    ∧ (∀ q, (hq : q < st.length) → k < q →
        ∀ hq2 : q < (recompilePass ok st.length 0 st).status.length,
        (recompilePass ok st.length 0 st).status.get ⟨q, hq2⟩ = st.get ⟨q, hq⟩) := by
  obtain ⟨hA, _, _, hD⟩ := recompilePass_fail_master ok st.length st 0 k hk hd
    (by simpa using hfail) (fun q hq hdq => by simpa using hbefore q hq hdq)
  exact ⟨fun j hj => by simpa using hA j hj, hD⟩

/-- Witness for C6: two dirty steps, step 0's callback fails; only step 0 is
invoked and step 1 keeps its Dirty flag. -/
theorem compile_error_stops_tick_witness :
    (∀ j ∈ (recompilePass (fun _ => false) 2 0
        [⟨"a", true, false⟩, ⟨"b", true, false⟩]).compiled, j ≤ 0)
    ∧ (∀ q, (hq : q < ([⟨"a", true, false⟩, ⟨"b", true, false⟩] :
          List sourceTreeStatus).length) → 0 < q →
        ∀ hq2 : q < (recompilePass (fun _ => false) 2 0
            [⟨"a", true, false⟩, ⟨"b", true, false⟩]).status.length,
        (recompilePass (fun _ => false) 2 0
            [⟨"a", true, false⟩, ⟨"b", true, false⟩]).status.get ⟨q, hq2⟩
          = ([⟨"a", true, false⟩, ⟨"b", true, false⟩] :
              List sourceTreeStatus).get ⟨q, hq⟩) :=
  compile_error_stops_tick (fun _ => false) [⟨"a", true, false⟩, ⟨"b", true, false⟩] 0
    (by decide) (by decide) rfl (fun q hq _ => absurd hq (Nat.not_lt_zero q))

/-- Claim C7: when step `k` is the first dirty step whose compile callback
fails during the recompilation phase, the callback is indeed invoked, but
afterwards step `k`'s Dirty flag is cleared (not restored on failure) and its
Broken flag and recorded tree hash are unchanged (Broken is not set); hence
on a following tick in which no watched tree changed (every hash equals the
recorded one) step `k`'s callback is not invoked again. -/
theorem failed_step_not_retried (ok ok2 : Nat → Bool) (quick2 : Bool)
    (st : List sourceTreeStatus) (k : Nat)
    (hk : k < st.length) (hd : (st.get ⟨k, hk⟩).Dirty = true) (hfail : ok k = false)
    (hbefore : ∀ q, (hq : q < k) → (st.get ⟨q, Nat.lt_trans hq hk⟩).Dirty = true →
      ok q = true) :
    k ∈ (recompilePass ok st.length 0 st).compiled
    ∧ (∀ hk2 : k < (recompilePass ok st.length 0 st).status.length,
        (recompilePass ok st.length 0 st).status.get ⟨k, hk2⟩
          = { st.get ⟨k, hk⟩ with Dirty := false })
    ∧ k ∉ (tick quick2 ok2 ((recompilePass ok st.length 0 st).status.map
        (fun s => (s, s.TreeHash)))).compiled := by
  obtain ⟨_, hB, hC, _⟩ := recompilePass_fail_master ok st.length st 0 k hk hd
    (by simpa using hfail) (fun q hq hdq => by simpa using hbefore q hq hdq)
  have hlen : (recompilePass ok st.length 0 st).status.length = st.length :=
    recompilePass_status_length ok st.length st 0
  refine ⟨by simpa using hB, hC, ?_⟩
  intro hmem
  have hscan : hashScan quick2 ((recompilePass ok st.length 0 st).status.map
      (fun s => (s, s.TreeHash)))
      = (recompilePass ok st.length 0 st).status := by
    rw [hashScan_unchanged quick2 _ (by simp)]
    rw [List.map_map, show (Prod.fst ∘ fun s : sourceTreeStatus => (s, s.TreeHash)) = id
      from rfl, List.map_id]
  rw [tick, hscan] at hmem
  obtain ⟨p, hp, hkp, hpd⟩ := recompilePass_compiled_dirty ok2 _ _ 0 k hmem
  have hpk : p = k := by omega
  subst hpk
  have := hC (by omega)
  rw [this] at hpd
  simp at hpd

/-- Witness for C7: one dirty step whose callback fails; it is invoked, its
Dirty flag ends cleared with Broken unchanged, and an unchanged-tree second
tick does not invoke it again. -/
theorem failed_step_not_retried_witness :
    0 ∈ (recompilePass (fun _ => false) 1 0 [⟨"a", true, false⟩]).compiled
    ∧ (∀ hk2 : 0 < (recompilePass (fun _ => false) 1 0 [⟨"a", true, false⟩]).status.length,
        (recompilePass (fun _ => false) 1 0 [⟨"a", true, false⟩]).status.get ⟨0, hk2⟩
          = { (([⟨"a", true, false⟩] : List sourceTreeStatus).get
                ⟨0, Nat.one_pos⟩) with Dirty := false })
    ∧ 0 ∉ (tick false (fun _ => true) ((recompilePass (fun _ => false) 1 0
        [⟨"a", true, false⟩]).status.map (fun s => (s, s.TreeHash)))).compiled :=
  failed_step_not_retried (fun _ => false) (fun _ => true) false [⟨"a", true, false⟩] 0
    Nat.one_pos (by decide) rfl (fun q hq _ => absurd hq (Nat.not_lt_zero q))

/-- Claim C8: a poll tick all of whose compile callbacks succeed leaves every
step's Dirty flag clear, and a second tick entered with tree hashes identical
to the recorded ones (no filesystem change in between) leaves the statuses
untouched, invokes no compile callback and signals no restart. -/
theorem tick_idempotent (quick quick2 : Bool) (ok ok2 : Nat → Bool)
    (pairs : List (sourceTreeStatus × String)) (hok : ∀ j, ok j = true) :
    (∀ s ∈ (tick quick ok pairs).status, s.Dirty = false)
    ∧ tick quick2 ok2 ((tick quick ok pairs).status.map (fun s => (s, s.TreeHash)))
        = ⟨(tick quick ok pairs).status, false, []⟩ := by
  have hclean : ∀ s ∈ (tick quick ok pairs).status, s.Dirty = false := by
    intro s hs
    exact recompilePass_all_ok_clean ok pairs.length hok (hashScan quick pairs) 0 s hs
  refine ⟨hclean, ?_⟩
  have hscan : hashScan quick2 ((tick quick ok pairs).status.map (fun s => (s, s.TreeHash)))
      = (tick quick ok pairs).status := by
    rw [hashScan_unchanged quick2 _ (by simp)]
    rw [List.map_map, show (Prod.fst ∘ fun s : sourceTreeStatus => (s, s.TreeHash)) = id
      from rfl, List.map_id]
  rw [tick, hscan]
  exact recompilePass_no_dirty ok2 _ _ 0 hclean

/-- Witness for C8 on a one-step pipeline whose hash changed and whose
compile succeeds. -/
theorem tick_idempotent_witness :
    (∀ s ∈ (tick false (fun _ => true) [(⟨"a", false, false⟩, "b")]).status,
      s.Dirty = false)
    ∧ tick false (fun _ => true)
        ((tick false (fun _ => true) [(⟨"a", false, false⟩, "b")]).status.map
          (fun s => (s, s.TreeHash)))
        = ⟨(tick false (fun _ => true) [(⟨"a", false, false⟩, "b")]).status, false, []⟩ :=
  tick_idempotent false false (fun _ => true) (fun _ => true)
    [(⟨"a", false, false⟩, "b")] (fun _ => rfl)

/-! ## Lemmas about the tree hasher -/

theorem hforest_append_nil : ∀ f : HForest, HForest.append f .nil = f
  | .nil => rfl
  | .cons t ts => by rw [HForest.append, hforest_append_nil ts]

mutual
theorem directoryHash_congr : ∀ (level : Nat) (fp : String) (w : WatchList) (t t' : FSNode),
    sameTree t t' = true → directoryHash level fp w t = directoryHash level fp w t'
  | level, fp, w, .file c m, .file c' m', h => by
    have hc : c = c' := by simpa [sameTree] using h
    subst hc
    simp only [directoryHash]
  | level, fp, w, .dir cs, .dir cs', h => by
    have h' : sameDir cs cs' = true := by simpa [sameTree] using h
    simp only [directoryHash, dirChildrenHash_congr level fp w cs cs' h']
  | _, _, _, .absent, .absent, _ => rfl
  | _, _, _, .file _ _, .dir _, h => by simp [sameTree] at h
  | _, _, _, .file _ _, .absent, h => by simp [sameTree] at h
  | _, _, _, .dir _, .file _ _, h => by simp [sameTree] at h
  | _, _, _, .dir _, .absent, h => by simp [sameTree] at h
  | _, _, _, .absent, .file _ _, h => by simp [sameTree] at h
  | _, _, _, .absent, .dir _, h => by simp [sameTree] at h
theorem dirChildrenHash_congr : ∀ (level : Nat) (fp : String) (w : WatchList) (cs cs' : FSDir),
    sameDir cs cs' = true → dirChildrenHash level fp w cs = dirChildrenHash level fp w cs'
  | _, _, _, .nil, .nil, _ => rfl
  | level, fp, w, .cons nm t r, .cons nm' t' r', h => by
    have hall : (nm = nm' ∧ sameTree t t' = true) ∧ sameDir r r' = true := by
      simpa [sameDir] using h
    obtain ⟨⟨h1, h2⟩, h3⟩ := hall
    subst h1
    simp only [dirChildrenHash, directoryHash_congr (level + 1) (pathJoin fp nm) w t t' h2,
      dirChildrenHash_congr level fp w r r' h3]
  | _, _, _, .nil, .cons _ _ _, h => by simp [sameDir] at h
  | _, _, _, .cons _ _ _, .nil, h => by simp [sameDir] at h
end

theorem rootsHash_congr (w : WatchList) (fs1 fs2 : String → FSNode) :
    ∀ paths : List String, (∀ p ∈ paths, sameTree (fs1 p) (fs2 p) = true) →
      rootsHash w fs1 paths = rootsHash w fs2 paths := by
  intro paths
  induction paths with
  | nil => intro _; rfl
  | cons d rest ih =>
    intro h
    simp only [rootsHash]
    rw [directoryHash_congr 0 d w _ _ (h d (List.mem_cons_self _ _)),
      ih (fun p hp => h p (List.mem_cons_of_mem _ hp))]

/-- Claim C9: the tree hasher is deterministic — over any two filesystems
that agree in structure and content under the watched roots (same paths,
same file names in the same listing order, same file bytes; metadata such as
modification times free to differ) `sourceTreeHash` produces the identical
digest.  Since the digest is a pure function of the watch list and that
content alone, this covers repeated calls as well as calls in different
processes. -/
theorem sourceTreeHash_deterministic (w : WatchList) (fs1 fs2 : String → FSNode)
    (h : ∀ p ∈ w.Paths, sameTree (fs1 p) (fs2 p) = true) :
    sourceTreeHash w fs1 = sourceTreeHash w fs2 := by
  unfold sourceTreeHash
  rw [rootsHash_congr w fs1 fs2 w.Paths h]

/-- Witness for C9: two filesystems whose single file differs only in its
modification time hash identically. -/
theorem sourceTreeHash_deterministic_witness :
    sourceTreeHash ⟨["r"], none⟩ (fun _ => .file [1, 2] 5)
      = sourceTreeHash ⟨["r"], none⟩ (fun _ => .file [1, 2] 99) :=
  sourceTreeHash_deterministic ⟨["r"], none⟩ (fun _ => .file [1, 2] 5)
    (fun _ => .file [1, 2] 99) (fun p _ => by simp [sameTree])

theorem takeWhile_append_all (p : Char → Bool) :
    ∀ (l r : List Char), (∀ x ∈ l, p x = true) → (l ++ r).takeWhile p = l ++ r.takeWhile p := by
  intro l r
  induction l with
  | nil => intro _; rfl
  | cons a l' ih =>
    intro h
    have ha : p a = true := h a (List.mem_cons_self _ _)
    simp only [List.cons_append, List.takeWhile_cons, ha, if_true]
    rw [ih (fun x hx => h x (List.mem_cons_of_mem _ hx))]

theorem pathJoin_data (a b : String) : (pathJoin a b).data = a.data ++ '/' :: b.data := by
  simp [pathJoin, String.data_append]

theorem filepathBase_join (fp name : String) (h1 : name.data ≠ [])
    (h2 : ∀ c ∈ name.data, ¬ c = '/') : filepathBase (pathJoin fp name) = name := by
  have hdata : (pathJoin fp name).data = fp.data ++ '/' :: name.data := pathJoin_data fp name
  have hne : ¬ pathJoin fp name = "" := by
    intro h
    have hnil : (pathJoin fp name).data = [] := by rw [h]
    rw [hdata] at hnil
    simp at hnil
  have hrevne : name.data.reverse ≠ [] := by simpa [List.reverse_eq_nil_iff] using h1
  obtain ⟨c, rest, hrev⟩ := List.exists_cons_of_ne_nil hrevne
  have hcmem : c ∈ name.data := by
    rw [← List.mem_reverse, hrev]
    exact List.mem_cons_self _ _
  have hcne : ¬ c = '/' := h2 c hcmem
  have hrestmem : ∀ x ∈ rest, x ∈ name.data := by
    intro x hx
    rw [← List.mem_reverse, hrev]
    exact List.mem_cons_of_mem _ hx
  simp only [filepathBase, hne, if_false]
  rw [hdata, List.reverse_append, List.reverse_cons, List.append_assoc, List.singleton_append,
    hrev]
  simp only [List.cons_append, List.dropWhile_cons, hcne, decide_False, Bool.false_eq_true,
    if_false]
  rw [if_neg (List.cons_ne_nil _ _)]
  simp only [List.takeWhile_cons, hcne, decide_not, decide_False, Bool.not_false, if_true]
  rw [takeWhile_append_all _ rest _ (fun x hx => by simp [h2 x (hrestmem x hx)])]
  simp only [List.takeWhile_cons, decide_not]
  simp only [decide_True, Bool.not_true, Bool.false_eq_true, if_false, List.append_nil]
  rw [← hrev, List.reverse_reverse]

theorem globMatch_dot_go_eq : ∀ s, globMatch ('.' :: 'g' :: 'o' :: []) s = true →
    s = ['.', 'g', 'o'] := by
  intro s h
  match s with
  | [] => simp [globMatch] at h
  | a :: s1 =>
    match s1 with
    | [] => simp [globMatch] at h
    | b :: s2 =>
      match s2 with
      | [] => simp [globMatch] at h
      | c :: s3 =>
        match s3 with
        | [] =>
          simp [globMatch] at h
          obtain ⟨ha, hb, hc⟩ := h
          simp [← ha, ← hb, ← hc]
        | d :: s4 =>
          simp [globMatch] at h

theorem globMatch_star_go_ends : ∀ s : List Char,
    globMatch ('*' :: '.' :: 'g' :: 'o' :: []) s = true → s.getLast? = some 'o' := by
  intro s
  induction s with
  | nil => intro h; simp [globMatch] at h
  | cons d s' ih =>
    intro h
    rw [globMatch] at h
    rw [if_pos rfl] at h
    rcases Bool.or_eq_true_iff.mp h with h1 | h1
    · have hs : d :: s' = ['.', 'g', 'o'] := globMatch_dot_go_eq _ h1
      rw [hs]
      rfl
    · obtain ⟨hd, hm⟩ := (Bool.and_eq_true _ _).mp h1
      have hlast := ih hm
      have hne : s' ≠ [] := by
        intro he
        rw [he] at hlast
        simp at hlast
      obtain ⟨e, t, rfl⟩ := List.exists_cons_of_ne_nil hne
      rw [List.getLast?_cons_cons]
      exact hlast

/-- The watch list of the filter-correctness scenario of claim C10: a single
watched root named `root` with filter list `["*.go"]`. -/
def w10 : WatchList := ⟨["root"], some ["*.go"]⟩

/-- A chain of `n` nested directories below a root, ending in a directory
holding exactly one file `name` with content `c`. -/
def nestAt : Nat → String → List Nat → FSNode
  | 0, name, c => .dir (.cons name (.file c 0) .nil)
  | n + 1, name, c => .dir (.cons ("sub") (nestAt n name c) .nil)

/-- The same chain of `n` nested directories with an empty directory at the
bottom. -/
def emptyNest : Nat → FSNode
  | 0 => .dir .nil
  | n + 1 => .dir (.cons ("sub") (emptyNest n) .nil)

/-- A filesystem exposing tree `t` at every root path. -/
def fsOf (t : FSNode) : String → FSNode := fun _ => t

theorem matchesFilter_maingo (fp : String) :
    matchesFilter w10 (pathJoin fp ("main.go")) = true := by
  have hbase : filepathBase (pathJoin fp ("main.go")) = "main.go" :=
    filepathBase_join fp ("main.go") (by decide) (by decide)
  simp only [matchesFilter, w10, List.any_cons, List.any_nil, Bool.or_false]
  rw [hbase]
  have hb : globMatch ("*.go".data) ("main.go".data) = true := by simp [globMatch]
  rw [hb, Bool.or_true]

theorem matchesFilter_maintxt (fp : String) :
    matchesFilter w10 (pathJoin fp ("main.txt")) = false := by
  have hbase : filepathBase (pathJoin fp ("main.txt")) = "main.txt" :=
    filepathBase_join fp ("main.txt") (by decide) (by decide)
  have hfull : globMatch ("*.go".data) ((pathJoin fp ("main.txt")).data) = false := by
    cases hg : globMatch ("*.go".data) ((pathJoin fp ("main.txt")).data)
    · rfl
    · have hends := globMatch_star_go_ends ((pathJoin fp ("main.txt")).data)
        (by rw [show ('*' :: '.' :: 'g' :: 'o' :: []) = "*.go".data from rfl]; exact hg)
      rw [pathJoin_data, List.getLast?_append_cons] at hends
      simp at hends
  simp only [matchesFilter, w10, List.any_cons, List.any_nil, Bool.or_false]
  rw [hbase, hfull]
  have hb : globMatch ("*.go".data) ("main.txt".data) = false := by simp [globMatch]
  rw [hb, Bool.or_false]

theorem nest_go_digest_inj : ∀ (n level : Nat) (fp : String) (c₁ c₂ : List Nat),
    excludedDir (filepathBase fp) = false →
    directoryHash level fp w10 (nestAt n ("main.go") c₁)
      = directoryHash level fp w10 (nestAt n ("main.go") c₂) → c₁ = c₂ := by
  intro n
  induction n with
  | zero =>
    intro level fp c₁ c₂ hex h
    simp only [nestAt, directoryHash, dirChildrenHash, hex, Bool.and_false,
      Bool.false_eq_true, if_false, matchesFilter_maingo, if_true, HForest.append,
      (show hiddenName ("main.go") = false from rfl)] at h
    simpa using h
  | succ n ih =>
    intro level fp c₁ c₂ hex h
    have hsub : excludedDir (filepathBase (pathJoin fp ("sub"))) = false := by
      rw [filepathBase_join fp ("sub") (by decide) (by decide)]
      decide
    simp only [nestAt, directoryHash, dirChildrenHash, hex, Bool.and_false,
      Bool.false_eq_true, if_false, hforest_append_nil,
      (show hiddenName ("sub") = false from rfl)] at h
    exact ih (level + 1) (pathJoin fp ("sub")) c₁ c₂ hsub (by simpa using h)

theorem nest_txt_digest_empty : ∀ (n level : Nat) (fp : String) (c : List Nat),
    directoryHash level fp w10 (nestAt n ("main.txt") c)
      = directoryHash level fp w10 (emptyNest n) := by
  intro n
  induction n with
  | zero =>
    intro level fp c
    simp only [nestAt, emptyNest, directoryHash, dirChildrenHash, matchesFilter_maintxt,
      Bool.false_eq_true, if_false, HForest.append,
      (show hiddenName ("main.txt") = false from rfl)]
  | succ n ih =>
    intro level fp c
    simp only [nestAt, emptyNest, directoryHash, dirChildrenHash,
      (show hiddenName ("sub") = false from rfl), Bool.false_eq_true, if_false,
      hforest_append_nil]
    rw [ih (level + 1) (pathJoin fp ("sub")) c]

/-- Claim C10: with filter `["*.go"]`, at every nesting depth `n` below the
watched root, the content of a file named `main.go` contributes to the digest
(two trees differing only in that content hash differently), while a file
named `main.txt` contributes nothing (its content never affects the digest —
indeed the digest equals that of the same tree without the file at all). -/
theorem filter_go_included_txt_excluded (n : Nat) (c₁ c₂ : List Nat) (hne : c₁ ≠ c₂) :
    sourceTreeHash w10 (fsOf (nestAt n ("main.go") c₁))
        ≠ sourceTreeHash w10 (fsOf (nestAt n ("main.go") c₂))
    ∧ sourceTreeHash w10 (fsOf (nestAt n ("main.txt") c₁))
        = sourceTreeHash w10 (fsOf (nestAt n ("main.txt") c₂))
    ∧ sourceTreeHash w10 (fsOf (nestAt n ("main.txt") c₁))
        = sourceTreeHash w10 (fsOf (emptyNest n)) := by
  have hroot : excludedDir (filepathBase ("root")) = false := by decide
  refine ⟨?_, ?_, ?_⟩
  · intro h
    apply hne
    apply nest_go_digest_inj n 0 ("root") c₁ c₂ hroot
    simp only [sourceTreeHash, (show w10.Paths = ["root"] from rfl), rootsHash, fsOf,
      hforest_append_nil] at h
    simpa using h
  · simp only [sourceTreeHash, (show w10.Paths = ["root"] from rfl), rootsHash, fsOf]
    rw [nest_txt_digest_empty n 0 ("root") c₁, nest_txt_digest_empty n 0 ("root") c₂]
  · simp only [sourceTreeHash, (show w10.Paths = ["root"] from rfl), rootsHash, fsOf]
    rw [nest_txt_digest_empty n 0 ("root") c₁]

/-- Witness for C10 at depth 1 with contents `[0]` and `[1]`. -/
theorem filter_go_included_txt_excluded_witness :
    sourceTreeHash w10 (fsOf (nestAt 1 ("main.go") [0]))
        ≠ sourceTreeHash w10 (fsOf (nestAt 1 ("main.go") [1]))
    ∧ sourceTreeHash w10 (fsOf (nestAt 1 ("main.txt") [0]))
        = sourceTreeHash w10 (fsOf (nestAt 1 ("main.txt") [1]))
    ∧ sourceTreeHash w10 (fsOf (nestAt 1 ("main.txt") [0]))
        = sourceTreeHash w10 (fsOf (emptyNest 1)) :=
  filter_go_included_txt_excluded 1 [0] [1] (by decide)

end BuildGo
